import Mathlib

/-!
Shallow embedding of the beir repository (two modules) for specification
checking:

* `src/beir/datasets/data_loader_hf.py` — `HFDataLoader`: `check`, `load`,
  `_sample_corpus`, and the qrels-dictionary construction inside `load`.
  The filesystem is modelled as the list of existing paths; the columnar
  datasets produced by the external `datasets` library are modelled as Lean
  lists of records (the library's parsing itself is external and is modelled
  as an `Except`-valued input, so that errors it would raise are visible in
  the sequencing); Python dicts keyed by strings are modelled as association
  lists with Python's insertion-order / in-place-update semantics; the
  `float` score column is modelled exactly as a rational number.

* `src/beir/retrieval/models/dpr.py` — `DPR.encode_queries` and
  `DPR.encode_corpus`: the tokenizer+model composite is an abstract
  per-item embedding function, the batching loop over
  `range(0, len(xs), batch_size)` is explicit index recursion,
  `torch.stack` on an empty list raises (modelled as `none`), as does the
  `assert` on the row count and Python's `range` with step 0.
-/

deriving instance DecidableEq for Except

namespace Beir

/-! ### Data model (section 3 of the spec) -/

/-- A corpus document after `_load_corpus`: `_id` cast to string and renamed
to `id`, columns pruned to id/title/text. -/
structure Doc where
  id : String
  title : String
  text : String
deriving Repr, DecidableEq

/-- A query record after `_load_queries`: `_id` cast to string, renamed to
`id`, columns pruned to id/text. -/
structure Query where
  id : String
  text : String
deriving Repr, DecidableEq

/-- One row of the qrels table after `_load_qrels` casts the features:
`query-id` and `corpus-id` as strings, `score` as a float (modelled as an
exact rational). -/
structure QRelRow where
  queryId : String
  corpusId : String
  score : ℚ
deriving Repr, DecidableEq

/-- Python `int()` applied to a (rational-modelled) float: truncation toward
zero. -/
def pyInt (q : ℚ) : Int :=
  if 0 ≤ q then ⌊q⌋ else ⌈q⌉

/-! ### Python dict as insertion-ordered association list -/

/-- `m[k] = v` on a Python dict: update in place if the key exists, else
append at the end (insertion order preserved). -/
def alSet {β : Type} (m : List (String × β)) (k : String) (v : β) : List (String × β) :=
  match m with
  | [] => [(k, v)]
  | (k', v') :: rest => if k' = k then (k, v) :: rest else (k', v') :: alSet rest k v

/-- Key lookup on a Python dict. -/
def alGet {β : Type} (m : List (String × β)) (k : String) : Option β :=
  match m with
  | [] => none
  | (k', v') :: rest => if k' = k then some v' else alGet rest k

/-- The `qrels_dict` built in `load`: query-id to (corpus-id to int score). -/
abbrev QrelsDict := List (String × List (String × Int))

/-- One step of `qrels_dict_init`:
`qrels_dict[row['query-id']][row['corpus-id']] = int(row['score'])`, where
`qrels_dict` is a `defaultdict(dict)` (a missing outer key reads as the
empty dict). -/
def qrelsStep (m : QrelsDict) (r : QRelRow) : QrelsDict :=
  alSet m r.queryId (alSet ((alGet m r.queryId).getD []) r.corpusId (pyInt r.score))

/-- `self.qrels.map(qrels_dict_init)`: fold the rows in order into the
defaultdict. -/
def qrelsDict (rows : List QRelRow) : QrelsDict :=
  rows.foldl qrelsStep []

/-- The key view of the dict: what Python's `x['id'] in self.qrels` tests. -/
def qrelsKeys (m : QrelsDict) : List String :=
  m.map Prod.fst

/-- Nested lookup `qrels[q][c]`. -/
def qrelsGet (m : QrelsDict) (q c : String) : Option Int :=
  (alGet m q).bind fun inner => alGet inner c

/-! ### HFDataLoader.check and the check phase of load -/

/-- Python's `str.endswith`, modelled on the character sequences of the two
strings: `s` ends with `ext` iff `ext`'s characters are a suffix of `s`'s. -/
def endswith (s ext : String) : Bool :=
  ext.data.isSuffixOf s.data

/-- The message of the missing-file `ValueError` in `HFDataLoader.check`. -/
def notPresentMsg (fIn : String) : String :=
  "File " ++ fIn ++ " not present! Please provide accurate file."

/-- The message of the wrong-extension `ValueError` in `HFDataLoader.check`. -/
def wrongExtMsg (fIn ext : String) : String :=
  "File " ++ fIn ++ " must be present with extension " ++ ext

/-- `HFDataLoader.check(fIn, ext)` over a filesystem `fs` (the list of
existing paths): raise if the path does not exist, else raise if its name
does not end with `ext`, else succeed. -/
def check (fs : List String) (fIn ext : String) : Except String Unit :=
  if !fs.contains fIn then Except.error (notPresentMsg fIn)
  else if !endswith fIn ext then Except.error (wrongExtMsg fIn ext)
  else Except.ok ()

/-- The local-mode configuration fields of `HFDataLoader` that `load`
reads (after `__init__` has joined the folder and prefix into the paths). -/
structure Config where
  corpus_file : String
  query_file : String
  qrels_folder : String
  sample : Nat
  include_qrel_corpus_docs : Bool

/-- `self.qrels_file = os.path.join(self.qrels_folder, split + ".tsv")`. -/
def qrelsPath (cfg : Config) (split : String) : String :=
  cfg.qrels_folder ++ "/" ++ split ++ ".tsv"

/-- The three checks at the top of `load` (local mode), in source order. -/
def loadChecks (fs : List String) (cfg : Config) (split : String) : Except String Unit := do
  check fs cfg.corpus_file "jsonl"
  check fs cfg.query_file "jsonl"
  check fs (qrelsPath cfg split) "tsv"

/-! ### HFDataLoader._sample_corpus -/

/-- `include_corpus_ids`: all corpus-ids of all retained judgments when the
flag is set, else the empty list. -/
def includeCorpusIds (flag : Bool) (qrels : QrelsDict) : List String :=
  if flag then qrels.flatMap (fun p => p.2.map Prod.fst) else []

/-- `filtered_dataset = self.corpus.filter(lambda example: example['id'] in
include_corpus_ids)`. -/
def filteredDocs (corpus : List Doc) (qrels : QrelsDict) (flag : Bool) : List Doc :=
  corpus.filter fun ex => (includeCorpusIds flag qrels).contains ex.id

/-- `sampled_dataset = self.corpus.select(range(int(len(self.corpus) *
self.sample / 100.0)))`: the first `⌊n·s/100⌋` documents.  (For every
corpus size for which the Python float quotient is exact enough —
`n·s < 2^46` suffices — `int(n·s/100.0)` equals this exact truncation.) -/
def sampledDocs (corpus : List Doc) (sample : Nat) : List Doc :=
  corpus.take (corpus.length * sample / 100)

/-- The `is_unique` filter with its `memory` set: keep an element iff its id
has not been seen yet, recording ids as they pass. -/
def dedup (seen : List String) : List Doc → List Doc
  | [] => []
  | d :: rest =>
      if seen.contains d.id then dedup seen rest
      else d :: dedup (d.id :: seen) rest

/-- `HFDataLoader._sample_corpus`: concatenate the judgment-referenced
documents with the prefix slice and deduplicate by id. -/
def sample_corpus (corpus : List Doc) (qrels : QrelsDict) (sample : Nat) (flag : Bool) : List Doc :=
  dedup [] (filteredDocs corpus qrels flag ++ sampledDocs corpus sample)

/-! ### HFDataLoader.load (local mode) -/

/-- The triple `load` returns. -/
structure LoadResult where
  corpus : List Doc
  queries : List Query
  qrels : QrelsDict
deriving Repr, DecidableEq

/-- `HFDataLoader.load(split)` in local (non-`hf_repo`) mode.  The three
dataset parses delegated to the external library are inputs
(`Except`-valued: the library may raise); they are only consulted after
all three file checks pass, exactly as in the source.  Then the qrels dict
is built, queries without a qrels key are filtered out, and when
`sample < 100` the corpus is replaced by `_sample_corpus`. -/
def load (fs : List String) (cfg : Config) (split : String)
    (corpusData : Except String (List Doc))
    (queryData : Except String (List Query))
    (qrelsData : Except String (List QRelRow)) : Except String LoadResult := do
  loadChecks fs cfg split
  let corpus ← corpusData
  let queries ← queryData
  let rows ← qrelsData
  let qrels := qrelsDict rows
  let queries := queries.filter fun x => (qrelsKeys qrels).contains x.id
  let corpus := if cfg.sample < 100 then sample_corpus corpus qrels cfg.sample cfg.include_qrel_corpus_docs else corpus
  Except.ok ⟨corpus, queries, qrels⟩

/-! ### Spec-side deduplication (for the refinement claims C5/C7) -/

/-- Modelled from the spec: remove duplicate identifiers, keeping the first
occurrence. -/
def keepFirst : List Doc → List Doc
  | [] => []
  | d :: rest => d :: keepFirst (rest.filter fun e => e.id != d.id)
termination_by l => l.length
decreasing_by
  simpa using Nat.lt_succ_of_le (List.length_filter_le _ rest)

/-! ### DPR.encode_queries and DPR.encode_corpus -/

/-- The batching loop `for start_idx in range(0, len(xs), batch_size)`,
collecting one embedding per item of each slice `xs[start_idx:start_idx+b]`
(`f` is the tokenizer+encoder+pooler composite applied to one item). -/
def encodeFrom {α β : Type} (f : α → β) (xs : List α) (b : Nat) (hb : 0 < b)
    (start : Nat) : List β :=
  if _h : start < xs.length then
    ((xs.drop start).take b).map f ++ encodeFrom f xs b hb (start + b)
  else []
termination_by xs.length - start
decreasing_by omega

/-- One record of the corpus argument of `encode_corpus`. -/
structure CorpusRecord where
  title : String
  text : String
deriving Repr, DecidableEq

/-- `DPR.encode_queries(queries, batch_size)`: `none` models a raised
exception — `range` with step 0 raises, `torch.stack` of an empty embedding
list raises, and a failing `assert out_tensor.shape[0] == len(queries)`
raises. -/
def encode_queries {β : Type} (f : String → β) (queries : List String)
    (batch_size : Nat) : Option (List β) :=
  if hb : 0 < batch_size then
    let output := encodeFrom f queries batch_size hb 0
    if output.length = 0 then none
    else if output.length = queries.length then some output
    else none
  else none

/-- `DPR.encode_corpus(corpus, batch_size)`: same batching, the per-item
embedding applied to the (title, text) pair of each record. -/
def encode_corpus {β : Type} (g : String → String → β) (corpus : List CorpusRecord)
    (batch_size : Nat) : Option (List β) :=
  if hb : 0 < batch_size then
    let output := encodeFrom (fun r => g r.title r.text) corpus batch_size hb 0
    if output.length = 0 then none
    else if output.length = corpus.length then some output
    else none
  else none

/-! ### Concrete example inputs (used by the witnesses below) -/

/-- A filesystem holding the three expected files. -/
def fsW : List String := ["corpus.jsonl", "queries.jsonl", "qrels/test.tsv"]

/-- The same filesystem with the qrels file named `test.csv` instead. -/
def fsCsv : List String := ["corpus.jsonl", "queries.jsonl", "qrels/test.csv"]

/-- Default-named configuration, no sampling. -/
def cfgW : Config := ⟨"corpus.jsonl", "queries.jsonl", "qrels", 100, true⟩

/-- Same configuration sampling 50 percent, qrel docs exempt. -/
def cfgW50 : Config := ⟨"corpus.jsonl", "queries.jsonl", "qrels", 50, true⟩

/-- Same configuration sampling 50 percent, exemption flag off. -/
def cfgW50no : Config := ⟨"corpus.jsonl", "queries.jsonl", "qrels", 50, false⟩

/-- A four-document corpus. -/
def corpusW : List Doc :=
  [⟨"d1", "T1", "x"⟩, ⟨"d2", "T2", "y"⟩, ⟨"d3", "T3", "z"⟩, ⟨"d4", "T4", "w"⟩]

/-- Two queries; only `q1` has a judgment. -/
def queriesW : List Query := [⟨"q1", "a"⟩, ⟨"q2", "b"⟩]

/-- One judgment row: query `q1`, document `d3`, score 1. -/
def rowsW : List QRelRow := [⟨"q1", "d3", 1⟩]

/-- The result of `load` on the example without sampling. -/
def resW : LoadResult := ⟨corpusW, [⟨"q1", "a"⟩], [("q1", [("d3", 1)])]⟩

/-- The result of `load` on the example at 50 percent with the exemption
flag: the judgment document `d3` first, then the prefix slice `d1, d2`. -/
def res50 : LoadResult :=
  ⟨[⟨"d3", "T3", "z"⟩, ⟨"d1", "T1", "x"⟩, ⟨"d2", "T2", "y"⟩],
    [⟨"q1", "a"⟩], [("q1", [("d3", 1)])]⟩

/-- The result of `load` on the example at 50 percent with the flag off:
just the deduplicated prefix slice. -/
def res50no : LoadResult :=
  ⟨[⟨"d1", "T1", "x"⟩, ⟨"d2", "T2", "y"⟩], [⟨"q1", "a"⟩], [("q1", [("d3", 1)])]⟩

/-! ## Lemmas about the batching loop -/

/-- The batching loop started at `start` collects exactly the embeddings of
the items from position `start` on, in order. -/
theorem encodeFrom_eq_map {α β : Type} (f : α → β) (xs : List α) (b : Nat) (hb : 0 < b)
    (start : Nat) : encodeFrom f xs b hb start = (xs.drop start).map f := by
  rw [encodeFrom]
  split
  · have h2 : xs.drop (start + b) = (xs.drop start).drop b := by
      rw [List.drop_drop, Nat.add_comm]
    rw [encodeFrom_eq_map f xs b hb (start + b), h2, ← List.map_append,
      List.take_append_drop]
  · rw [List.drop_eq_nil_of_le (by omega), List.map_nil]
termination_by xs.length - start
decreasing_by omega

/-- On a nonempty input and positive batch size, `encode_queries` succeeds
and returns the per-item embeddings in input order. -/
theorem encode_queries_eq {β : Type} (f : String → β) (qs : List String) (b : Nat)
    (hb : 0 < b) (hq : qs ≠ []) : encode_queries f qs b = some (qs.map f) := by
  unfold encode_queries
  rw [dif_pos hb]
  simp only [encodeFrom_eq_map, List.drop_zero, List.length_map]
  rw [if_neg (by simpa using hq)]
  simp

/-- On a nonempty input and positive batch size, `encode_corpus` succeeds
and returns the per-record embeddings in input order. -/
theorem encode_corpus_eq {β : Type} (g : String → String → β) (cs : List CorpusRecord)
    (b : Nat) (hb : 0 < b) (hc : cs ≠ []) :
    encode_corpus g cs b = some (cs.map fun r => g r.title r.text) := by
  unfold encode_corpus
  rw [dif_pos hb]
  simp only [encodeFrom_eq_map, List.drop_zero, List.length_map]
  rw [if_neg (by simpa using hc)]
  simp

/-! ## Lemmas about the dict model -/

theorem alGet_alSet {β : Type} (m : List (String × β)) (k k' : String) (v : β) :
    alGet (alSet m k v) k' = if k' = k then some v else alGet m k' := by
  induction m with
  | nil =>
    by_cases h : k' = k
    · simp [alSet, alGet, h]
    · have h' : ¬k = k' := fun hh => h hh.symm
      simp [alSet, alGet, h, h']
  | cons p rest ih =>
    obtain ⟨a, b⟩ := p
    by_cases hak : a = k
    · subst hak
      by_cases h : k' = a
      · subst h; simp [alSet, alGet]
      · have h' : ¬a = k' := fun hh => h hh.symm
        simp [alSet, alGet, h, h']
    · by_cases h : k' = a
      · subst h
        have h' : ¬k' = k := fun hh => hak hh
        simp [alSet, alGet, hak, h']
      · have h' : ¬a = k' := fun hh => h hh.symm
        simp [alSet, alGet, hak, h, h', ih]

theorem alGet_mem {β : Type} (m : List (String × β)) (k : String) (v : β)
    (h : alGet m k = some v) : (k, v) ∈ m := by
  induction m with
  | nil => simp [alGet] at h
  | cons p rest ih =>
    obtain ⟨a, b⟩ := p
    simp only [alGet] at h
    split_ifs at h with hka
    · obtain rfl := hka
      obtain rfl : b = v := by simpa using h
      simp
    · simpa using Or.inr (ih h)

theorem mem_keys_alSet {β : Type} (m : List (String × β)) (k k' : String) (v : β) :
    k' ∈ (alSet m k v).map Prod.fst ↔ k' ∈ m.map Prod.fst ∨ k' = k := by
  induction m with
  | nil => simp [alSet]
  | cons p rest ih =>
    obtain ⟨a, b⟩ := p
    by_cases hak : a = k
    · subst hak
      simp [alSet]
      tauto
    · simp only [alSet, if_neg hak, List.map_cons, List.mem_cons, ih]
      tauto

theorem mem_qrelsKeys_step (m : QrelsDict) (r : QRelRow) (k : String) :
    k ∈ qrelsKeys (qrelsStep m r) ↔ k ∈ qrelsKeys m ∨ k = r.queryId := by
  simpa [qrelsKeys, qrelsStep] using mem_keys_alSet m r.queryId k _

theorem mem_qrelsKeys_foldl (rows : List QRelRow) (m : QrelsDict) (k : String) :
    k ∈ qrelsKeys (rows.foldl qrelsStep m) ↔
      k ∈ qrelsKeys m ∨ ∃ r ∈ rows, r.queryId = k := by
  induction rows generalizing m with
  | nil => simp
  | cons r rest ih =>
    rw [List.foldl_cons, ih, mem_qrelsKeys_step]
    constructor
    · rintro ((h | rfl) | ⟨r', hr', rfl⟩)
      · exact Or.inl h
      · exact Or.inr ⟨r, by simp⟩
      · exact Or.inr ⟨r', by simp [hr']⟩
    · rintro (h | ⟨r', hr', rfl⟩)
      · exact Or.inl (Or.inl h)
      · rcases List.mem_cons.mp hr' with rfl | hr'
        · exact Or.inl (Or.inr rfl)
        · exact Or.inr ⟨r', hr', rfl⟩

theorem mem_qrelsKeys_qrelsDict (rows : List QRelRow) (k : String) :
    k ∈ qrelsKeys (qrelsDict rows) ↔ ∃ r ∈ rows, r.queryId = k := by
  simpa [qrelsDict, qrelsKeys] using mem_qrelsKeys_foldl rows [] k

theorem qrelsGet_step (m : QrelsDict) (r : QRelRow) (q c : String) :
    qrelsGet (qrelsStep m r) q c =
      if q = r.queryId ∧ c = r.corpusId then some (pyInt r.score)
      else qrelsGet m q c := by
  unfold qrelsGet qrelsStep
  rw [alGet_alSet]
  by_cases hq : q = r.queryId
  · rw [if_pos hq]
    simp only [Option.some_bind]
    rw [alGet_alSet]
    by_cases hc : c = r.corpusId
    · rw [if_pos hc, if_pos ⟨hq, hc⟩]
    · rw [if_neg hc, if_neg (by tauto), hq]
      cases hg : alGet m r.queryId with
      | none => simp [hg, alGet]
      | some inner => simp [hg]
  · rw [if_neg hq, if_neg (by tauto)]

theorem qrelsGet_foldl (rows : List QRelRow) (m : QrelsDict) (q c : String) :
    qrelsGet (rows.foldl qrelsStep m) q c =
      (rows.reverse.find? fun r => q == r.queryId && c == r.corpusId).elim
        (qrelsGet m q c) (fun r => some (pyInt r.score)) := by
  induction rows generalizing m with
  | nil => simp
  | cons r rest ih =>
    rw [List.foldl_cons, ih, List.reverse_cons, List.find?_append]
    cases hfind : rest.reverse.find? (fun r => q == r.queryId && c == r.corpusId) with
    | some r' => simp [hfind]
    | none =>
      simp only [hfind, Option.none_or]
      rw [qrelsGet_step]
      by_cases hqc : q = r.queryId ∧ c = r.corpusId
      · have hp : (q == r.queryId && c == r.corpusId) = true := by
          simp [hqc.1, hqc.2]
        rw [if_pos hqc]
        simp [List.find?, hp]
      · have hfalse : (q == r.queryId && c == r.corpusId) = false := by
          rcases not_and_or.mp hqc with h | h <;> simp [h]
        rw [if_neg hqc]
        simp [List.find?, hfalse]

theorem qrelsGet_qrelsDict (rows : List QRelRow) (q c : String) :
    qrelsGet (qrelsDict rows) q c =
      (rows.reverse.find? fun r => q == r.queryId && c == r.corpusId).elim
        none (fun r => some (pyInt r.score)) := by
  unfold qrelsDict
  rw [qrelsGet_foldl]
  rfl

theorem mem_includeCorpusIds (m : QrelsDict) (q c : String) (s : Int)
    (h : qrelsGet m q c = some s) : c ∈ includeCorpusIds true m := by
  unfold qrelsGet at h
  cases hg : alGet m q with
  | none => rw [hg] at h; simp at h
  | some inner =>
    rw [hg] at h
    simp only [Option.some_bind] at h
    have hmem : (q, inner) ∈ m := alGet_mem _ _ _ hg
    have hcmem : (c, s) ∈ inner := alGet_mem _ _ _ h
    have hflat : c ∈ m.flatMap fun p => p.2.map Prod.fst :=
      List.mem_flatMap.mpr ⟨(q, inner), hmem, List.mem_map.mpr ⟨(c, s), hcmem, rfl⟩⟩
    simpa [includeCorpusIds] using hflat

/-! ## Lemmas about deduplication -/

theorem keepFirst_nil : keepFirst [] = [] := by
  rw [keepFirst]

theorem keepFirst_cons (d : Doc) (rest : List Doc) :
    keepFirst (d :: rest) = d :: keepFirst (rest.filter fun e => e.id != d.id) := by
  rw [keepFirst]

theorem dedup_cons_mem (seen : List String) (d : Doc) (rest : List Doc)
    (hd : d.id ∈ seen) : dedup seen (d :: rest) = dedup seen rest := by
  simp [dedup, hd]

theorem dedup_cons_not_mem (seen : List String) (d : Doc) (rest : List Doc)
    (hd : d.id ∉ seen) : dedup seen (d :: rest) = d :: dedup (d.id :: seen) rest := by
  simp [dedup, hd]

theorem dedup_eq_keepFirst (l : List Doc) (seen : List String) :
    dedup seen l = keepFirst (l.filter fun d => !seen.contains d.id) := by
  induction l generalizing seen with
  | nil => simp [dedup, keepFirst_nil]
  | cons d rest ih =>
    by_cases hd : d.id ∈ seen
    · rw [dedup_cons_mem seen d rest hd, List.filter_cons, if_neg (by simp [hd]), ih]
    · rw [dedup_cons_not_mem seen d rest hd, List.filter_cons, if_pos (by simp [hd]),
        keepFirst_cons, ih (d.id :: seen), List.filter_filter]
      congr 1
      congr 1
      apply List.filter_congr
      intro e _
      by_cases h1 : e.id = d.id <;> by_cases h2 : e.id ∈ seen <;>
        simp [h1, h2, List.contains_cons]

theorem dedup_nil_eq_keepFirst (l : List Doc) : dedup [] l = keepFirst l := by
  rw [dedup_eq_keepFirst]
  congr 1
  simp

theorem dedup_nodup (l : List Doc) (seen : List String) :
    ((dedup seen l).map Doc.id).Nodup ∧ ∀ d ∈ dedup seen l, d.id ∉ seen := by
  induction l generalizing seen with
  | nil => simp [dedup]
  | cons d rest ih =>
    by_cases hd : d.id ∈ seen
    · simpa [dedup_cons_mem seen d rest hd] using ih seen
    · have ih' := ih (d.id :: seen)
      rw [dedup_cons_not_mem seen d rest hd]
      refine ⟨List.nodup_cons.mpr ⟨fun hmem => ?_, ih'.1⟩, ?_⟩
      · obtain ⟨e, he, heid⟩ := List.mem_map.mp hmem
        exact (ih'.2 e he) (by simp [heid])
      · intro e he
        rcases List.mem_cons.mp he with rfl | he'
        · exact hd
        · exact fun hc => (ih'.2 e he') (by simp [hc])

theorem dedup_mem_id (l : List Doc) (seen : List String) (i : String)
    (hseen : i ∉ seen) (h : ∃ d ∈ l, d.id = i) :
    ∃ d ∈ dedup seen l, d.id = i := by
  induction l generalizing seen with
  | nil => simp at h
  | cons d rest ih =>
    obtain ⟨d', hd', hid⟩ := h
    by_cases hd : d.id ∈ seen
    · rw [dedup_cons_mem seen d rest hd]
      rcases List.mem_cons.mp hd' with rfl | hmem
      · exact absurd (hid ▸ hd) hseen
      · exact ih seen hseen ⟨d', hmem, hid⟩
    · rw [dedup_cons_not_mem seen d rest hd]
      by_cases hdi : d.id = i
      · exact ⟨d, by simp, hdi⟩
      · rcases List.mem_cons.mp hd' with rfl | hmem
        · exact absurd hid hdi
        · have hid' : ¬i = d.id := fun hh => hdi hh.symm
          obtain ⟨e, he, heid⟩ := ih (d.id :: seen)
            (by simp [hseen, hid'])
            ⟨d', hmem, hid⟩
          exact ⟨e, by simp [he], heid⟩

/-! ## Inversion of load -/

theorem load_error_of_checks (fs : List String) (cfg : Config) (split : String)
    (e : String) (h : loadChecks fs cfg split = .error e)
    (cD : Except String (List Doc)) (qD : Except String (List Query))
    (rD : Except String (List QRelRow)) :
    load fs cfg split cD qD rD = .error e := by
  unfold load
  rw [h]
  rfl

theorem loadChecks_missing_corpus (fs : List String) (cfg : Config) (split : String)
    (h : cfg.corpus_file ∉ fs) :
    loadChecks fs cfg split = .error (notPresentMsg cfg.corpus_file) := by
  have hc : fs.contains cfg.corpus_file = false := by simpa using h
  unfold loadChecks check
  rw [hc]
  rfl

theorem load_ok_inv (fs : List String) (cfg : Config) (split : String)
    (corpus : List Doc) (queries : List Query) (rows : List QRelRow) (res : LoadResult)
    (h : load fs cfg split (.ok corpus) (.ok queries) (.ok rows) = .ok res) :
    res.corpus = (if cfg.sample < 100 then
        sample_corpus corpus (qrelsDict rows) cfg.sample cfg.include_qrel_corpus_docs
      else corpus)
    ∧ res.queries = queries.filter (fun x => (qrelsKeys (qrelsDict rows)).contains x.id)
    ∧ res.qrels = qrelsDict rows := by
  unfold load at h
  cases hc : loadChecks fs cfg split with
  | error e => rw [hc] at h; simp [Bind.bind, Except.bind] at h
  | ok u =>
    rw [hc] at h
    simp only [Bind.bind, Except.bind, Except.ok.injEq] at h
    rw [← h]
    exact ⟨rfl, rfl, rfl⟩

/-! ## The claims -/

/-- C1: for every successful `load`, the returned queries are exactly the
subset (as a filter, preserving order and multiplicity) of the raw query
records whose identifier occurs as a key of the returned qrels mapping:
every query without a qrels entry is dropped, every query with one kept. -/
theorem load_queries_exactly_qrel_keyed (fs : List String) (cfg : Config)
    (split : String) (corpus : List Doc) (queries : List Query)
    (rows : List QRelRow) (res : LoadResult)
    (h : load fs cfg split (.ok corpus) (.ok queries) (.ok rows) = .ok res) :
    res.queries = queries.filter (fun q => (qrelsKeys res.qrels).contains q.id)
    ∧ ∀ q : Query, q ∈ res.queries ↔ q ∈ queries ∧ q.id ∈ qrelsKeys res.qrels := by
  obtain ⟨_, hq, hr⟩ := load_ok_inv fs cfg split corpus queries rows res h
  rw [hq, hr]
  refine ⟨rfl, fun q => ?_⟩
  rw [List.mem_filter]
  simp

/-- Witness for C1 at the concrete example. -/
theorem load_queries_exactly_qrel_keyed_witness :
    resW.queries = queriesW.filter (fun q => (qrelsKeys resW.qrels).contains q.id) :=
  (load_queries_exactly_qrel_keyed fsW cfgW "test" corpusW queriesW rowsW resW
    (by decide)).1

/-- C2: for a nonempty list of queries and a positive batch size,
`encode_queries` returns exactly one row per input, in input order (so the
internal row-count assertion holds and no exception is raised), the row
order is independent of the batch size (batch size 1 equals batch size N),
and the same holds for `encode_corpus` on title/text records. -/
theorem encode_row_count_and_order {β : Type} (f : String → β)
    (g : String → String → β) (queries : List String)
    (corpus : List CorpusRecord) (b : Nat)
    (hb : 0 < b) (hq : queries ≠ []) (hc : corpus ≠ []) :
    encode_queries f queries b = some (queries.map f)
    ∧ encode_corpus g corpus b = some (corpus.map fun r => g r.title r.text)
    ∧ encode_queries f queries 1 = encode_queries f queries queries.length := by
  refine ⟨encode_queries_eq f queries b hb hq, encode_corpus_eq g corpus b hb hc, ?_⟩
  rw [encode_queries_eq f queries 1 one_pos hq,
    encode_queries_eq f queries queries.length (List.length_pos.mpr hq) hq]

/-- Witness for C2 at concrete inputs. -/
theorem encode_row_count_and_order_witness :
    encode_queries String.length ["a", "bb"] 2 = some (["a", "bb"].map String.length)
    ∧ encode_corpus (fun t x => (t ++ x).length) [⟨"t", "u"⟩] 2
        = some (([⟨"t", "u"⟩] : List CorpusRecord).map fun r => (r.title ++ r.text).length)
    ∧ encode_queries String.length ["a", "bb"] 1
        = encode_queries String.length ["a", "bb"] (["a", "bb"] : List String).length :=
  encode_row_count_and_order String.length (fun t x => (t ++ x).length)
    ["a", "bb"] [⟨"t", "u"⟩] 2 (by decide) (by decide) (by decide)

/-- C3: any judgment entry retained in the returned qrels mapping, when the
exemption flag is set and sampling is below 100, has its document (when it
exists in the loaded corpus) present in the sampled corpus returned by
`load`. -/
theorem qrel_docs_in_sampled_corpus (fs : List String) (cfg : Config)
    (split : String) (corpus : List Doc) (queries : List Query)
    (rows : List QRelRow) (res : LoadResult)
    (h : load fs cfg split (.ok corpus) (.ok queries) (.ok rows) = .ok res)
    (hflag : cfg.include_qrel_corpus_docs = true) (hs : cfg.sample < 100)
    (q c : String) (s : Int) (hq : qrelsGet res.qrels q c = some s)
    (d : Doc) (hd : d ∈ corpus) (hid : d.id = c) :
    ∃ d' ∈ res.corpus, d'.id = c := by
  obtain ⟨hcor, _, hr⟩ := load_ok_inv fs cfg split corpus queries rows res h
  rw [hr] at hq
  rw [hcor, if_pos hs]
  unfold sample_corpus
  have hinc : c ∈ includeCorpusIds cfg.include_qrel_corpus_docs (qrelsDict rows) := by
    rw [hflag]
    exact mem_includeCorpusIds _ _ _ _ hq
  have hdfilt : d ∈ filteredDocs corpus (qrelsDict rows) cfg.include_qrel_corpus_docs := by
    unfold filteredDocs
    rw [List.mem_filter]
    exact ⟨hd, by simp [hid, hinc]⟩
  exact dedup_mem_id _ [] c (by simp) ⟨d, List.mem_append.mpr (Or.inl hdfilt), hid⟩

/-- Witness for C3: document `d3` (outside the 50 percent prefix) is in the
sampled corpus because `q1` judges it. -/
theorem qrel_docs_in_sampled_corpus_witness : ∃ d' ∈ res50.corpus, d'.id = "d3" :=
  qrel_docs_in_sampled_corpus fsW cfgW50 "test" corpusW queriesW rowsW res50
    (by decide) rfl (by decide) "q1" "d3" 1 (by decide)
    ⟨"d3", "T3", "z"⟩ (by decide) rfl

/-- C4 counterexample: with the qrels file on disk named `test.csv`, `load`
raises the missing-file error for the constructed path `qrels/test.tsv`,
not the wrong-extension error the claim asserts (the two messages differ). -/
theorem csv_qrels_gives_missing_file_not_wrong_ext :
    load fsCsv cfgW "test" (.ok corpusW) (.ok queriesW) (.ok rowsW)
      = .error (notPresentMsg "qrels/test.tsv")
    ∧ notPresentMsg "qrels/test.tsv" ≠ wrongExtMsg "qrels/test.tsv" "tsv"
    ∧ notPresentMsg "qrels/test.tsv" ≠ wrongExtMsg "qrels/test.csv" "tsv" :=
  ⟨by decide, by decide, by decide⟩

/-- C4 (amended): in local mode, when the corpus and query files pass their
checks and the constructed qrels path `folder/split.tsv` does not exist
(e.g. because the file is named `test.csv`), `load` raises the missing-file
configuration error naming that `.tsv` path — the wrong-extension branch is
never reached for the qrels file, since `load` always appends `.tsv`. -/
theorem csv_qrels_raises_missing_tsv (fs : List String) (cfg : Config) (split : String)
    (h1 : check fs cfg.corpus_file "jsonl" = .ok ())
    (h2 : check fs cfg.query_file "jsonl" = .ok ())
    (hq : qrelsPath cfg split ∉ fs)
    (cD : Except String (List Doc)) (qD : Except String (List Query))
    (rD : Except String (List QRelRow)) :
    load fs cfg split cD qD rD = .error (notPresentMsg (qrelsPath cfg split)) := by
  apply load_error_of_checks
  have hc : fs.contains (qrelsPath cfg split) = false := by simpa using hq
  unfold loadChecks
  rw [h1, h2]
  show check fs (qrelsPath cfg split) "tsv" = Except.error (notPresentMsg (qrelsPath cfg split))
  unfold check
  rw [hc]
  rfl

/-- Witness for the amended C4 at the concrete `test.csv` filesystem. -/
theorem csv_qrels_raises_missing_tsv_witness :
    load fsCsv cfgW "test" (.ok []) (.ok []) (.ok [])
      = .error (notPresentMsg (qrelsPath cfgW "test")) :=
  csv_qrels_raises_missing_tsv fsCsv cfgW "test" (by decide) (by decide) (by decide)
    (.ok []) (.ok []) (.ok [])

/-- C5: whenever sampling applies, the corpus returned by `load` has no two
entries with the same identifier, and it equals the keep-first
deduplication of the judgment-referenced documents followed by the prefix
slice, in their concatenated order. -/
theorem sampled_corpus_nodup_keep_first (fs : List String) (cfg : Config)
    (split : String) (corpus : List Doc) (queries : List Query)
    (rows : List QRelRow) (res : LoadResult)
    (h : load fs cfg split (.ok corpus) (.ok queries) (.ok rows) = .ok res)
    (hs : cfg.sample < 100) :
    ((res.corpus.map Doc.id).Nodup)
    ∧ res.corpus = keepFirst (filteredDocs corpus (qrelsDict rows)
        cfg.include_qrel_corpus_docs ++ sampledDocs corpus cfg.sample) := by
  obtain ⟨hcor, _, _⟩ := load_ok_inv fs cfg split corpus queries rows res h
  rw [hcor, if_pos hs]
  unfold sample_corpus
  exact ⟨(dedup_nodup _ []).1, dedup_nil_eq_keepFirst _⟩

/-- Witness for C5 at the concrete 50 percent example. -/
theorem sampled_corpus_nodup_keep_first_witness :
    ((res50.corpus.map Doc.id).Nodup)
    ∧ res50.corpus = keepFirst (filteredDocs corpusW (qrelsDict rowsW)
        cfgW50.include_qrel_corpus_docs ++ sampledDocs corpusW cfgW50.sample) :=
  sampled_corpus_nodup_keep_first fsW cfgW50 "test" corpusW queriesW rowsW res50
    (by decide) (by decide)

/-- C6: in local mode, a missing corpus file makes `load` fail with the
corpus missing-file error regardless of the query/qrels data — even when
those parses would themselves fail — i.e. before any parse is consulted;
more generally any failure of the three-check phase short-circuits `load`
with that error. -/
theorem missing_corpus_fails_before_parsing (fs : List String) (cfg : Config)
    (split : String) :
    (cfg.corpus_file ∉ fs →
      ∀ (cD : Except String (List Doc)) (qD : Except String (List Query))
        (rD : Except String (List QRelRow)),
        load fs cfg split cD qD rD = .error (notPresentMsg cfg.corpus_file))
    ∧ (∀ e : String, loadChecks fs cfg split = .error e →
        ∀ (cD : Except String (List Doc)) (qD : Except String (List Query))
          (rD : Except String (List QRelRow)),
          load fs cfg split cD qD rD = .error e) := by
  refine ⟨fun hm cD qD rD => ?_, fun e he cD qD rD =>
    load_error_of_checks fs cfg split e he cD qD rD⟩
  exact load_error_of_checks fs cfg split _ (loadChecks_missing_corpus fs cfg split hm)
    cD qD rD

/-- Witness for C6: the corpus file is absent and all three data inputs are
erroring parses; `load` still reports the corpus missing-file error. -/
theorem missing_corpus_fails_before_parsing_witness :
    load ["queries.jsonl", "qrels/test.tsv"] cfgW "test"
      (.error "corpus parse error") (.error "query parse error")
      (.error "qrels parse error") = .error (notPresentMsg "corpus.jsonl") :=
  (missing_corpus_fails_before_parsing ["queries.jsonl", "qrels/test.tsv"] cfgW "test").1
    (by decide) (.error "corpus parse error") (.error "query parse error")
    (.error "qrels parse error")

/-- C7: with sampling below 100, the prefix slice is exactly the first
`⌊n·s/100⌋` documents of the loaded corpus (exact integer truncation), and
with the exemption flag unset the corpus returned by `load` is exactly that
slice deduplicated (keep-first). -/
theorem sample_slice_exact_truncation (fs : List String) (cfg : Config)
    (split : String) (corpus : List Doc) (queries : List Query)
    (rows : List QRelRow) (res : LoadResult)
    (h : load fs cfg split (.ok corpus) (.ok queries) (.ok rows) = .ok res)
    (hs : cfg.sample < 100) (hflag : cfg.include_qrel_corpus_docs = false) :
    sampledDocs corpus cfg.sample = corpus.take (corpus.length * cfg.sample / 100)
    ∧ res.corpus = keepFirst (corpus.take (corpus.length * cfg.sample / 100)) := by
  obtain ⟨hcor, _, _⟩ := load_ok_inv fs cfg split corpus queries rows res h
  refine ⟨rfl, ?_⟩
  rw [hcor, if_pos hs]
  unfold sample_corpus
  have hfilt : filteredDocs corpus (qrelsDict rows) cfg.include_qrel_corpus_docs = [] := by
    rw [hflag]
    unfold filteredDocs includeCorpusIds
    simp
  rw [hfilt, List.nil_append, dedup_nil_eq_keepFirst]
  rfl

/-- Witness for C7: 4 documents at 50 percent, flag off: the first two. -/
theorem sample_slice_exact_truncation_witness :
    sampledDocs corpusW cfgW50no.sample
      = corpusW.take (corpusW.length * cfgW50no.sample / 100)
    ∧ res50no.corpus = keepFirst (corpusW.take (corpusW.length * cfgW50no.sample / 100)) :=
  sample_slice_exact_truncation fsW cfgW50no "test" corpusW queriesW rowsW res50no
    (by decide) (by decide) rfl

/-- C8: the returned qrels structure is the mapping of mappings built from
the string-typed (query-id, corpus-id) pairs to the integer-converted
scores; when no (query-id, corpus-id) pair repeats, each input row is
retrievable with exactly its truncated score. -/
theorem qrels_mapping_int_scores (fs : List String) (cfg : Config)
    (split : String) (corpus : List Doc) (queries : List Query)
    (rows : List QRelRow) (res : LoadResult)
    (h : load fs cfg split (.ok corpus) (.ok queries) (.ok rows) = .ok res)
    (hnd : (rows.map fun r => (r.queryId, r.corpusId)).Nodup) :
    res.qrels = qrelsDict rows
    ∧ ∀ r ∈ rows, qrelsGet res.qrels r.queryId r.corpusId = some (pyInt r.score) := by
  obtain ⟨_, _, hr⟩ := load_ok_inv fs cfg split corpus queries rows res h
  refine ⟨hr, fun r hmem => ?_⟩
  rw [hr, qrelsGet_qrelsDict]
  have hsome : (rows.reverse.find? fun x =>
      r.queryId == x.queryId && r.corpusId == x.corpusId).isSome :=
    List.find?_isSome.mpr ⟨r, List.mem_reverse.mpr hmem, by simp⟩
  obtain ⟨r', hfind⟩ := Option.isSome_iff_exists.mp hsome
  rw [hfind]
  have hpr := List.find?_some hfind
  have hmem' : r' ∈ rows := List.mem_reverse.mp (List.mem_of_find?_eq_some hfind)
  simp only [Bool.and_eq_true, beq_iff_eq] at hpr
  have hpair : (fun r : QRelRow => (r.queryId, r.corpusId)) r
      = (fun r : QRelRow => (r.queryId, r.corpusId)) r' := by
    simp [hpr.1, hpr.2]
  have heq : r = r' := List.inj_on_of_nodup_map hnd hmem hmem' hpair
  rw [← heq]
  rfl

/-- Witness for C8 at the concrete judgment row. -/
theorem qrels_mapping_int_scores_witness :
    qrelsGet resW.qrels "q1" "d3" = some (pyInt 1) :=
  (qrels_mapping_int_scores fsW cfgW "test" corpusW queriesW rowsW resW
    (by decide) (by decide)).2 ⟨"q1", "d3", 1⟩ (by decide)

/-- C9: on the empty input list, both encoders raise (modelled as `none`):
the empty embedding list cannot be stacked, so no 0-row array is returned
and the row-count assertion is never reached. -/
theorem encode_empty_raises {β : Type} (f : String → β) (g : String → String → β)
    (b : Nat) : encode_queries f [] b = none ∧ encode_corpus g [] b = none := by
  refine ⟨?_, ?_⟩
  · unfold encode_queries
    by_cases hb : 0 < b
    · rw [dif_pos hb]
      simp [encodeFrom_eq_map]
    · rw [dif_neg hb]
  · unfold encode_corpus
    by_cases hb : 0 < b
    · rw [dif_pos hb]
      simp [encodeFrom_eq_map]
    · rw [dif_neg hb]

/-- C10: `check` succeeds exactly on an existing path whose name ends with
the extension string — no dot separator is required (`corpusjsonl` passes
the corpus check, whose extension argument is `jsonl`) — and the
missing-file error takes precedence over the wrong-extension error. -/
theorem check_ok_iff_suffix (fs : List String) (fIn ext : String) :
    (check fs fIn ext = .ok () ↔ fIn ∈ fs ∧ endswith fIn ext = true)
    ∧ (fIn ∉ fs → check fs fIn ext = .error (notPresentMsg fIn))
    ∧ (fIn ∈ fs → endswith fIn ext = false →
        check fs fIn ext = .error (wrongExtMsg fIn ext)) := by
  unfold check
  by_cases hm : fIn ∈ fs
  · have hc : fs.contains fIn = true := by simpa using hm
    rw [hc]
    by_cases he : endswith fIn ext
    · simp [he, hm]
    · simp [he, hm]
  · have hc : fs.contains fIn = false := by simpa using hm
    rw [hc]
    simp [hm]

/-- Witness for C10: a file named `corpusjsonl` (no dot) passes the check
with extension string `jsonl`, exactly as `load` invokes it. -/
theorem check_ok_iff_suffix_witness :
    check ["corpusjsonl"] "corpusjsonl" "jsonl" = .ok () :=
  (check_ok_iff_suffix ["corpusjsonl"] "corpusjsonl" "jsonl").1.mpr
    ⟨by decide, by decide⟩

end Beir
